import Mathlib

/-!
Verification development for the universal M3U8 proxy server (Go).

The Go sources are shallowly embedded: strings are modelled as `List Char`
(`Str`), Go maps of headers as association lists, and the relevant slice of
the Go standard library `net/url` (Parse / ResolveReference / String /
QueryEscape) is modelled faithfully for ASCII byte strings.  Handlers are
modelled as pure functions of the already-fetched upstream response, since
the network is external to the program.
-/

namespace M3U8Proxy

/-- Go strings are byte strings; we model them as lists of characters and
restrict URL parsing to ASCII input (Go operates on raw bytes; on non-ASCII
input the byte-level and rune-level views diverge, so the model rejects it). -/
abbrev Str := List Char

/-- Convert a Lean string literal to the model's string type. -/
def lit (s : String) : Str := s.data

/-- Go `unicode.IsSpace` restricted to the ASCII whitespace characters,
as used by `strings.TrimSpace`. -/
def isSpaceGo (c : Char) : Bool :=
  c = ' ' ∨ c = '\t' ∨ c = '\n' ∨ c = (Char.ofNat 11) ∨ c = (Char.ofNat 12) ∨ c = '\r'

/-- `strings.TrimSpace`. -/
def trimSp (l : Str) : Str :=
  ((l.dropWhile isSpaceGo).reverse.dropWhile isSpaceGo).reverse

/-- `strings.HasPrefix`. -/
def strStartsWith : Str → Str → Bool
  | _, [] => true
  | [], _ :: _ => false
  | c :: t, p :: q => c = p && strStartsWith t q

/-- `strings.HasSuffix`. -/
def strEndsWith (l p : Str) : Bool :=
  strStartsWith l.reverse p.reverse

/-- `strings.TrimPrefix`. -/
def trimPfx (l p : Str) : Str :=
  if strStartsWith l p then l.drop p.length else l

/-- `strings.TrimSuffix`. -/
def trimSfx (l p : Str) : Str :=
  if strEndsWith l p then l.take (l.length - p.length) else l

/-- `strings.Contains`. -/
def containsSub : Str → Str → Bool
  | l, p =>
    if strStartsWith l p then true
    else match l with
      | [] => false
      | _ :: t => containsSub t p

/-- `strings.Index`: index of the leftmost occurrence of `p` in `l`. -/
def strIndex : Str → Str → Option Nat
  | l, p =>
    if strStartsWith l p then some 0
    else match l with
      | [] => none
      | _ :: t => (strIndex t p).map (· + 1)

/-- Go `split(s, sep, cutc)` from net/url: split at the first occurrence of
`sep`; with `cutc` the separator is dropped from the right part. -/
def splitChar (l : Str) (sep : Char) (cutc : Bool) : Str × Str :=
  match l.findIdx? (fun c => c = sep) with
  | none => (l, [])
  | some i => (l.take i, if cutc then l.drop (i + 1) else l.drop i)

/-- Split on every occurrence of a separator character (`strings.Split`). -/
def splitAllChar (sep : Char) : Str → List Str
  | [] => [[]]
  | c :: t =>
    if c = sep then [] :: splitAllChar sep t
    else
      match splitAllChar sep t with
      | h :: r => (c :: h) :: r
      | [] => [[c]]

/-- `strings.Join` with a one-character separator. -/
def joinWith (sep : Char) : List Str → Str
  | [] => []
  | [s] => s
  | s :: r => s ++ sep :: joinWith sep r

/-- `strings.Split(body, "\n")`. -/
def splitLines : Str → List Str := splitAllChar '\n'

/-- `strings.Join(lines, "\n")`. -/
def joinNl : List Str → Str := joinWith '\n'

/-- Index of the last occurrence of a character (`strings.LastIndex`). -/
def lastIdxOf (l : Str) (c : Char) : Option Nat :=
  (l.reverse.findIdx? (fun d => d = c)).map (fun i => l.length - 1 - i)

/-- ASCII lower-casing of a character (Go `strings.ToLower` on ASCII data). -/
def lowC (c : Char) : Char :=
  if 'A' ≤ c ∧ c ≤ 'Z' then Char.ofNat (c.toNat + 32) else c

/-- ASCII upper-casing of a character (Go `strings.ToUpper` on ASCII data). -/
def upC (c : Char) : Char :=
  if 'a' ≤ c ∧ c ≤ 'z' then Char.ofNat (c.toNat - 32) else c

/-- `strings.ToLower` (ASCII fragment). -/
def asciiLower (l : Str) : Str := l.map lowC

/-- `strings.ToUpper` (ASCII fragment). -/
def asciiUpper (l : Str) : Str := l.map upC

/-- `strings.Replace(s, old, new, 1)`: replace the first occurrence; when
`old` is empty, Go inserts `new` at the start of the string. -/
def replaceFirst (s old new : Str) : Str :=
  if old = [] then new ++ s
  else
    match strIndex s old with
    | none => s
    | some i => s.take i ++ new ++ s.drop (i + old.length)

/-! ## The `net/url` model -/

/-- Escaping contexts of net/url (`encodePath`, `encodeHost`,
`encodeQueryComponent`, `encodeFragment`). -/
inductive EscMode where
  | path
  | host
  | query
  | frag
deriving DecidableEq, Repr

/-- Characters net/url leaves unescaped in a host beyond the unreserved set. -/
def hostExtra : List Char :=
  ['!', '$', '&', '\'', '(', ')', '*', '+', ',', ';', '=', ':', '[', ']', '<', '>', '"']

/-- net/url `shouldEscape`. -/
def shouldEsc (m : EscMode) (c : Char) : Bool :=
  if ('a' ≤ c ∧ c ≤ 'z') ∨ ('A' ≤ c ∧ c ≤ 'Z') ∨ ('0' ≤ c ∧ c ≤ '9') then false
  else if m = .host ∧ c ∈ hostExtra then false
  else if c = '-' ∨ c = '_' ∨ c = '.' ∨ c = '~' then false
  else if c = '$' ∨ c = '&' ∨ c = '+' ∨ c = ',' ∨ c = '/' ∨ c = ':' ∨ c = ';' ∨ c = '='
          ∨ c = '?' ∨ c = '@' then
    match m with
    | .path => c = '?'
    | .query => true
    | .frag => false
    | .host => true
  else if m = .frag ∧ (c = '!' ∨ c = '(' ∨ c = ')' ∨ c = '*') then false
  else true

/-- Upper-case hexadecimal digit (net/url uses upper case). -/
def hexUC (n : Nat) : Char :=
  if n < 10 then Char.ofNat (48 + n) else Char.ofNat (55 + n)

/-- Lower-case hexadecimal digit (encoding/json uses lower case). -/
def hexLC (n : Nat) : Char :=
  if n < 10 then Char.ofNat (48 + n) else Char.ofNat (87 + n)

/-- Percent-escape one byte. -/
def escChar (c : Char) : Str :=
  let b := c.toNat % 256
  ['%', hexUC (b / 16), hexUC (b % 16)]

/-- net/url `escape`. -/
def escapeWith (m : EscMode) : Str → Str
  | [] => []
  | c :: t =>
    (if m = .query ∧ c = ' ' then ['+']
     else if shouldEsc m c then escChar c
     else [c]) ++ escapeWith m t

/-- `url.QueryEscape`. -/
def queryEscape (l : Str) : Str := escapeWith .query l

def isHexD (c : Char) : Bool :=
  ('0' ≤ c ∧ c ≤ '9') ∨ ('a' ≤ c ∧ c ≤ 'f') ∨ ('A' ≤ c ∧ c ≤ 'F')

def unhex (c : Char) : Nat :=
  if '0' ≤ c ∧ c ≤ '9' then c.toNat - 48
  else if 'a' ≤ c ∧ c ≤ 'f' then c.toNat - 87
  else if 'A' ≤ c ∧ c ≤ 'F' then c.toNat - 55
  else 0

/-- net/url `unescape` (the zone handling and `+` query handling are not
modelled; the program never unescapes query components). -/
def unescapeWith (m : EscMode) : Str → Option Str
  | '%' :: a :: b :: t =>
    if isHexD a ∧ isHexD b then
      if m = .host ∧ unhex a < 8 ∧ ¬(a = '2' ∧ b = '5') then none
      else (unescapeWith m t).map (fun r => Char.ofNat (16 * unhex a + unhex b) :: r)
    else none
  | '%' :: _ :: [] => none
  | '%' :: [] => none
  | c :: t =>
    if m = .host ∧ c.toNat < 128 ∧ shouldEsc .host c then none
    else (unescapeWith m t).map (fun r => c :: r)
  | [] => some []

/-- net/url `validEncoded`. -/
def validEncoded (m : EscMode) (l : Str) : Bool :=
  l.all fun c =>
    c ∈ ['!', '$', '&', '\'', '(', ')', '*', '+', ',', ';', '=', ':', '@', '[', ']', '%']
    ∨ ¬ shouldEsc m c

/-- The model of Go's `url.URL` (the `User` field is not modelled: an
authority containing `@` makes the model's parse fail). -/
structure URL where
  scheme : Str
  opq : Str
  host : Str
  path : Str
  rawPath : Str
  omitHost : Bool
  forceQuery : Bool
  rawQuery : Str
  fragment : Str
  rawFragment : Str
deriving DecidableEq, Repr

instance : Inhabited URL :=
  ⟨⟨[], [], [], [], [], false, false, [], [], []⟩⟩

/-- `URL.EscapedPath`. -/
def escapedPath (u : URL) : Str :=
  if u.rawPath ≠ [] ∧ validEncoded .path u.rawPath ∧ unescapeWith .path u.rawPath = some u.path
  then u.rawPath
  else if u.path = lit "*" then lit "*"
  else escapeWith .path u.path

/-- `URL.EscapedFragment`. -/
def escapedFragment (u : URL) : Str :=
  if u.rawFragment ≠ []
     ∧ validEncoded .frag u.rawFragment
     ∧ unescapeWith .frag u.rawFragment = some u.fragment
  then u.rawFragment
  else escapeWith .frag u.fragment

/-- `URL.setPath`. -/
def setPath (u : URL) (raw : Str) : Option URL :=
  (unescapeWith .path raw).map fun p =>
    { u with path := p, rawPath := if escapeWith .path p = raw then [] else raw }

/-- `URL.setPath` with the error ignored, as `ResolveReference` does. -/
def setPathD (u : URL) (raw : Str) : URL :=
  (setPath u raw).getD u

/-- Stack pass of dot-segment removal: `.` is dropped, `..` pops. -/
def dotSegsAcc : List Str → List Str → List Str
  | acc, [] => acc
  | acc, s :: rest =>
    if s = lit "." then dotSegsAcc acc rest
    else if s = lit ".." then dotSegsAcc (acc.drop 1) rest
    else dotSegsAcc (s :: acc) rest

def splitOnSlash : Str → List Str := splitAllChar '/'

def joinSlash : List Str → Str := joinWith '/'

/-- net/url `resolvePath`: merge `ref` with the directory of `base` and
remove dot segments per RFC 3986 §5.2; the result is always rooted, a
trailing `.`/`..` leaves a trailing slash. -/
def resolvePathGo (base ref : Str) : Str :=
  let full :=
    if ref = [] then base
    else if ref.head? ≠ some '/' then
      (match lastIdxOf base '/' with
       | some i => base.take (i + 1)
       | none => []) ++ ref
    else ref
  if full = [] then []
  else
    let segs := if full.head? = some '/' then splitOnSlash (full.drop 1) else splitOnSlash full
    let stk := dotSegsAcc [] segs
    let trailing : Bool :=
      match segs.getLast? with
      | some s => s = lit "." || s = lit ".."
      | none => false
    '/' :: joinSlash stk.reverse ++ (if trailing ∧ stk ≠ [] then lit "/" else [])

/-- net/url `getScheme`; `none` is the "missing protocol scheme" error. -/
def getSchemeAux (orig : Str) : Nat → Str → Option (Str × Str)
  | _, [] => some ([], orig)
  | i, c :: t =>
    if ('a' ≤ c ∧ c ≤ 'z') ∨ ('A' ≤ c ∧ c ≤ 'Z') then getSchemeAux orig (i + 1) t
    else if ('0' ≤ c ∧ c ≤ '9') ∨ c = '+' ∨ c = '-' ∨ c = '.' then
      if i = 0 then some ([], orig) else getSchemeAux orig (i + 1) t
    else if c = ':' then
      if i = 0 then none else some (orig.take i, t)
    else some ([], orig)

def getScheme (l : Str) : Option (Str × Str) := getSchemeAux l 0 l

/-- net/url `validOptionalPort`. -/
def validOptionalPort : Str → Bool
  | [] => true
  | ':' :: t => t.all fun c => '0' ≤ c ∧ c ≤ '9'
  | _ => false

/-- net/url `parseHost` (the bracketed IPv6 form is not modelled and makes
the model's parse fail). -/
def parseHost (host : Str) : Option Str :=
  if strStartsWith host (lit "[") then none
  else
    let portOk :=
      match lastIdxOf host ':' with
      | some i => validOptionalPort (host.drop i)
      | none => true
    if portOk then unescapeWith .host host else none

/-- net/url `parseAuthority` (userinfo is not modelled: a `@` in the
authority makes the model's parse fail). -/
def parseAuthority (authority : Str) : Option Str :=
  if authority.any (fun c => c = '@') then none else parseHost authority

def dropLastChar (l : Str) : Str := l.take (l.length - 1)

/-- Build a URL once scheme/host/query are fixed and the raw path is known. -/
def mkWithPath (scheme host : Str) (omitH forceQuery : Bool) (rawQuery raw : Str) :
    Option URL :=
  (unescapeWith .path raw).map fun p =>
    { scheme := scheme, opq := [], host := host, path := p
      rawPath := if escapeWith .path p = raw then [] else raw
      omitHost := omitH, forceQuery := forceQuery, rawQuery := rawQuery
      fragment := [], rawFragment := [] }

/-- net/url `parse(rawURL, viaRequest := false)` for the pre-fragment part.
Control characters are rejected as in Go; bytes ≥ 0x80 are also rejected,
restricting the model to ASCII input. -/
def parseMain (rawURL : Str) : Option URL :=
  if rawURL.any (fun c => c.toNat < 32 ∨ c.toNat = 127 ∨ 128 ≤ c.toNat) then none
  else
    match getScheme rawURL with
    | none => none
    | some (scheme0, rest0) =>
      let scheme := asciiLower scheme0
      let fq := strEndsWith rest0 (lit "?") ∧ ¬ containsSub (dropLastChar rest0) (lit "?")
      let rest1 := if fq then dropLastChar rest0 else (splitChar rest0 '?' true).1
      let rawQuery : Str := if fq then [] else (splitChar rest0 '?' true).2
      if ¬ strStartsWith rest1 (lit "/") ∧ scheme ≠ [] then
        some { scheme := scheme, opq := rest1, host := [], path := [], rawPath := []
               omitHost := false, forceQuery := fq, rawQuery := rawQuery
               fragment := [], rawFragment := [] }
      else if ¬ strStartsWith rest1 (lit "/") ∧ scheme = []
              ∧ (splitChar rest1 '/' true).1.any (fun c => c = ':') then
        none
      else if (scheme ≠ [] ∨ ¬ strStartsWith rest1 (lit "///"))
              ∧ strStartsWith rest1 (lit "//") then
        let (authority, rest2) := splitChar (rest1.drop 2) '/' false
        match parseAuthority authority with
        | none => none
        | some host => mkWithPath scheme host false fq rawQuery rest2
      else
        mkWithPath scheme [] (scheme ≠ [] ∧ strStartsWith rest1 (lit "/")) fq rawQuery rest1

/-- net/url `Parse`: split the fragment, parse, attach the fragment. -/
def goParse (s : Str) : Option URL :=
  let (u, frag) := splitChar s '#' true
  match parseMain u with
  | none => none
  | some url =>
    if frag = [] then some url
    else
      (unescapeWith .frag frag).map fun f =>
        { url with fragment := f
                   rawFragment := if escapeWith .frag f = frag then [] else frag }

/-- `URL.ResolveReference` (without the unmodelled `User` field). -/
def resolveReference (u ref : URL) : URL :=
  let url0 := if ref.scheme = [] then { ref with scheme := u.scheme } else ref
  if ref.scheme ≠ [] ∨ ref.host ≠ [] then
    setPathD url0 (resolvePathGo (escapedPath ref) [])
  else if ref.opq ≠ [] then
    { url0 with host := [], path := [] }
  else
    let url1 :=
      if ref.path = [] ∧ ¬ ref.forceQuery ∧ ref.rawQuery = [] then
        let uq := { url0 with rawQuery := u.rawQuery }
        if ref.fragment = [] then { uq with fragment := u.fragment, rawFragment := u.rawFragment }
        else uq
      else url0
    setPathD { url1 with host := u.host } (resolvePathGo (escapedPath u) (escapedPath ref))

def containsColonFirstSeg (p : Str) : Bool :=
  (splitChar p '/' true).1.any fun c => c = ':'

/-- `URL.String`. -/
def urlString (u : URL) : Str :=
  let s1 := if u.scheme ≠ [] then u.scheme ++ lit ":" else []
  let core :=
    if u.opq ≠ [] then s1 ++ u.opq
    else
      let auth :=
        if u.scheme ≠ [] ∨ u.host ≠ [] then
          if u.omitHost ∧ u.host = [] then []
          else (if u.host ≠ [] ∨ u.path ≠ [] then lit "//" else []) ++ escapeWith .host u.host
        else []
      let p := escapedPath u
      let s2 := s1 ++ auth
      let s3 := s2 ++ (if p ≠ [] ∧ p.head? ≠ some '/' ∧ u.host ≠ [] then lit "/" else [])
      let s4 := s3 ++ (if s3 = [] ∧ containsColonFirstSeg p then lit "./" else [])
      s4 ++ p
  let q := if u.forceQuery ∨ u.rawQuery ≠ [] then '?' :: u.rawQuery else []
  let f := if u.fragment ≠ [] then '#' :: escapedFragment u else []
  core ++ q ++ f

/-- `resolveURL` from src/utils.go: resolve `relativeURL` against `baseURL`,
returning the original reference when either side fails to parse. -/
def resolveURL (baseURL relativeURL : Str) : Str :=
  match goParse baseURL with
  | none => relativeURL
  | some base =>
    match goParse relativeURL with
    | none => relativeURL
    | some rel => urlString (resolveReference base rel)

/-! ## Header maps and JSON encoding -/

/-- Go map assignment `m[k] = v` on an association-list representation. -/
def setHdr (m : List (Str × Str)) (k v : Str) : List (Str × Str) :=
  if m.any (fun p => p.1 = k) then m.map (fun p => if p.1 = k then (k, v) else p)
  else m ++ [(k, v)]

/-- Go map lookup `m[k]`. -/
def lookupHdr (m : List (Str × Str)) (k : Str) : Option Str :=
  (m.find? (fun p => p.1 = k)).map (fun p => p.2)

/-- Byte-wise string comparison, as Go compares map keys when
`encoding/json` sorts them. -/
def strLeB : Str → Str → Bool
  | [], _ => true
  | _ :: _, [] => false
  | a :: s, b :: t => if a < b then true else if b < a then false else strLeB s t

/-- Insert into a key-sorted association list. -/
def insPair (p : Str × Str) : List (Str × Str) → List (Str × Str)
  | [] => [p]
  | q :: t => if strLeB p.1 q.1 then p :: q :: t else q :: insPair p t

/-- Sort an association list by key, as `encoding/json` sorts map keys. -/
def sortPairs (l : List (Str × Str)) : List (Str × Str) :=
  l.foldr insPair []

/-- `encoding/json` string escaping (HTML-escaping enabled, the default). -/
def jsonEscChar (c : Char) : Str :=
  if c = '"' then ['\\', '"']
  else if c = '\\' then ['\\', '\\']
  else if c = '\n' then ['\\', 'n']
  else if c = '\r' then ['\\', 'r']
  else if c = '\t' then ['\\', 't']
  else if c = '<' then lit "\\u003c"
  else if c = '>' then lit "\\u003e"
  else if c = '&' then lit "\\u0026"
  else if c.toNat < 32 then lit "\\u00" ++ [hexLC (c.toNat / 16), hexLC (c.toNat % 16)]
  else [c]

def jsonQuote (s : Str) : Str :=
  '"' :: s.foldr (fun c acc => jsonEscChar c ++ acc) ['"']

/-- `json.Marshal` of a `map[string]string`: keys are sorted, so the
encoding is canonical whatever the map's iteration order. -/
def jsonMarshalMap (hs : List (Str × Str)) : Str :=
  Char.ofNat 123 ::
    joinWith ',' ((sortPairs hs).map fun kv => jsonQuote kv.1 ++ ':' :: jsonQuote kv.2)
    ++ [Char.ofNat 125]

/-- Default request headers from `generateRequestHeaders` in src/utils.go. -/
def defaultHeaders : List (Str × Str) :=
  [ (lit "User-Agent",
     lit "Mozilla/5.0 (Windows NT 10.0; Win64; x64; rv:137.0) Gecko/20100101 Firefox/137.0")
  , (lit "Accept", lit "*/*")
  , (lit "Accept-Language", lit "en-US,en;q=0.5")
  , (lit "Accept-Encoding", lit "gzip, deflate")
  , (lit "Connection", lit "keep-alive") ]

/-- `generateRequestHeaders` from src/utils.go: defaults, then the caller's
overrides merged on top, empty override values dropped. -/
def generateRequestHeaders (_targetURL : Str) (additional : List (Str × Str)) :
    List (Str × Str) :=
  additional.foldl (fun m kv => if kv.2 ≠ [] then setHdr m kv.1 kv.2 else m) defaultHeaders

/-! ## The /proxy (m3u8ProxyHandler) rewrite from src/handlers.go -/

/-- The `URI="..."` extraction shared by the key-URI processors: position of
the value and the value itself, `none` when the pattern is absent. -/
def extractKeyURIWith (line : Str) : Option (Nat × Str) :=
  match strIndex line (lit "URI=\"") with
  | none => none
  | some i0 =>
    let st := i0 + 5
    match strIndex (line.drop st) (lit "\"") with
    | none => none
    | some e => some (st, (line.drop st).take e)

/-- `processKeyURI` from src/handlers.go: resolve the quoted URI and splice a
/ts-proxy relay link over the first occurrence of the extracted value. -/
def processKeyURI (line baseURL : Str) (headers : List (Str × Str)) (web : Str) : Str :=
  match extractKeyURIWith line with
  | none => line
  | some (_, uri) =>
    let resolved := resolveURL baseURL uri
    let newURI := web ++ lit "/ts-proxy?url=" ++ queryEscape resolved
                  ++ lit "&headers=" ++ queryEscape (jsonMarshalMap headers)
    replaceFirst line uri newURI

/-- `processSegmentURL` from src/handlers.go: resolve the (trimmed) line and
emit a /proxy or /ts-proxy relay link depending on the line's suffix. -/
def processSegmentURL (line baseURL : Str) (headers : List (Str × Str)) (web : Str) : Str :=
  let resolved := resolveURL baseURL (trimSp line)
  let endp := if strEndsWith (asciiLower line) (lit ".m3u8") then lit "/proxy"
              else lit "/ts-proxy"
  web ++ endp ++ lit "?url=" ++ queryEscape resolved
      ++ lit "&headers=" ++ queryEscape (jsonMarshalMap headers)

/-- One line of the `m3u8ProxyHandler` rewrite loop (src/handlers.go). -/
def m3u8RewriteLine (targetURL : Str) (headers : List (Str × Str)) (web line : Str) : Str :=
  if strStartsWith line (lit "#") then
    if containsSub line (lit "URI=") then processKeyURI line targetURL headers web
    else line
  else if trimSp line ≠ [] then processSegmentURL line targetURL headers web
  else line

/-- The whole `m3u8ProxyHandler` body rewrite (src/handlers.go): split on
newlines, rewrite each line, join. No `#EXTM3U` validation is performed. -/
def m3u8Rewrite (targetURL : Str) (headers : List (Str × Str)) (web body : Str) : Str :=
  joinNl ((splitLines body).map (m3u8RewriteLine targetURL headers web))

/-- Outcome of a proxy handler: a JSON error response, or a body served with
a content type. -/
inductive ProxyOutcome where
  | err (msg : Str)
  | ok (contentType : Str) (body : Str)
deriving DecidableEq, Repr

def ProxyOutcome.isError : ProxyOutcome → Bool
  | .err _ => true
  | .ok _ _ => false

/-- `m3u8ProxyHandler` after a successful fetch and read: the body is
rewritten unconditionally and served as an HLS playlist. -/
def m3u8HandlerResult (targetURL : Str) (headers : List (Str × Str)) (web body : Str) :
    ProxyOutcome :=
  .ok (lit "application/vnd.apple.mpegurl") (m3u8Rewrite targetURL headers web body)

/-! ## Content-type detection and /ts-proxy, /mp4-proxy, /fetch -/

/-- `detectContentType` from src/handlers.go: suffix and substring tests on
the lower-cased full target URL. -/
def detectContentType (targetURL : Str) : Str :=
  let l := asciiLower targetURL
  if strEndsWith l (lit ".ts") then lit "video/mp2t"
  else if strEndsWith l (lit ".m3u8") then lit "application/vnd.apple.mpegurl"
  else if containsSub l (lit ".jpg") ∨ containsSub l (lit ".jpeg") then lit "image/jpeg"
  else if containsSub l (lit ".png") then lit "image/png"
  else if containsSub l (lit ".gif") then lit "image/gif"
  else if containsSub l (lit ".webp") then lit "image/webp"
  else if containsSub l (lit ".svg") then lit "image/svg+xml"
  else lit "application/octet-stream"

/-- The content type served by `tsProxyHandler` (src/handlers.go): upstream
`Content-Type` when non-empty, else the extension lookup. -/
def tsContentType (upstreamCT targetURL : Str) : Str :=
  if upstreamCT ≠ [] then upstreamCT else detectContentType targetURL

/-- The upstream response header fields the relay handlers inspect. -/
structure UpstreamResp where
  status : Nat
  contentType : Str
  contentLength : Str
  contentRange : Str
  acceptRanges : Str
deriving DecidableEq, Repr

/-- Outbound request headers built by `mp4ProxyHandler` (src/handlers.go):
headers are generated with overrides first, then a non-empty inbound
`Range` header is written on top. -/
def mp4OutboundHeaders (targetURL : Str) (parsedHeaders : List (Str × Str))
    (inboundRange : Str) : List (Str × Str) :=
  let rh := generateRequestHeaders targetURL parsedHeaders
  if inboundRange ≠ [] then setHdr rh (lit "Range") inboundRange else rh

/-- Response headers written by `mp4ProxyHandler` (src/handlers.go), in
order, as an association list. -/
def mp4RespHeaders (r : UpstreamResp) : List (Str × Str) :=
  [ (lit "Access-Control-Allow-Origin", lit "*")
  , (lit "Access-Control-Allow-Methods", lit "GET, OPTIONS")
  , (lit "Access-Control-Allow-Headers", lit "Content-Type, Authorization, Range")
  , (lit "Content-Type", if r.contentType ≠ [] then r.contentType else lit "video/mp4") ]
  ++ (if r.contentLength ≠ [] then [(lit "Content-Length", r.contentLength)] else [])
  ++ (if r.contentRange ≠ [] then [(lit "Content-Range", r.contentRange)] else [])
  ++ [ (lit "Accept-Ranges", if r.acceptRanges ≠ [] then r.acceptRanges else lit "bytes")
     , (lit "Content-Disposition", lit "inline") ]

/-- The status code `mp4ProxyHandler` writes: the upstream status,
unchanged. -/
def mp4RespStatus (r : UpstreamResp) : Nat := r.status

/-- The header-override map `fetchHandler` builds (src/unnamed/part_003):
referer convenience parameter, then the inbound `Range` only when no
override already carries one. -/
def fetchParsedHeaders (fromQuery : List (Str × Str)) (referer inboundRange : Str) :
    List (Str × Str) :=
  let p1 := if referer ≠ [] then setHdr fromQuery (lit "Referer") referer else fromQuery
  if inboundRange ≠ [] ∧ lookupHdr p1 (lit "Range") = none
  then p1 ++ [(lit "Range", inboundRange)]
  else p1

/-- Outbound headers of `fetchHandler`: the shaped overrides merged over the
defaults. -/
def fetchOutboundHeaders (targetURL : Str) (fromQuery : List (Str × Str))
    (referer inboundRange : Str) : List (Str × Str) :=
  generateRequestHeaders targetURL (fetchParsedHeaders fromQuery referer inboundRange)

/-! ## The universal HLS rewrite from src/v3_proxy.go -/

/-- Configuration threaded through `handleUniversalM3U8Proxy`: the relay's
public base URL, the detected path prefix, the reconstructed target URL,
the `host` query parameter, the base path of the playlist, and the
pre-encoded headers query parameter. -/
structure UniCfg where
  web : Str
  pfx : Str
  targetURL : Str
  host : Str
  basePath : Str
  headersParam : Str
deriving Repr

/-- The inline `URI="..."` extraction in `handleUniversalM3U8Proxy`; an
absent closing quote or an empty value both leave the inline URL empty. -/
def extractInlineURL (trimmed : Str) : Str :=
  if containsSub trimmed (lit "URI=\"") then
    match strIndex trimmed (lit "URI=\"") with
    | none => []
    | some i0 =>
      let st := i0 + 5
      match strIndex (trimmed.drop st) (lit "\"") with
      | none => []
      | some e => (trimmed.drop st).take e
  else []

/-- `resolveUniversalURL` from src/v3_proxy.go: extract the path of an
absolute URL (minus the prefix), or resolve a relative one against the
target URL after rebasing its path. -/
def resolveUniversalURL (urlStr targetURL _host basePath pfx : Str) : Str :=
  if strStartsWith urlStr (lit "http://") ∨ strStartsWith urlStr (lit "https://") then
    match goParse urlStr with
    | some parsed => trimPfx parsed.path pfx
    | none => urlStr
  else
    match goParse targetURL with
    | some baseU =>
      let newBasePath :=
        trimSfx baseU.path
          (trimPfx (trimPfx targetURL (baseU.scheme ++ lit "://" ++ baseU.host)) (lit "/"))
      let b2 : URL := { baseU with path := newBasePath }
      match goParse (basePath ++ urlStr) with
      | some relU => trimPfx (resolveReference b2 relU).path pfx
      | none => basePath ++ urlStr
    | none => basePath ++ urlStr

/-- The directive names whose following line (or inline URI) is rewritten in
a master playlist. -/
def allowedTags : List Str :=
  [lit "EXT-X-STREAM-INF", lit "EXT-X-MEDIA", lit "EXT-X-I-FRAME-STREAM-INF"]

/-- The relay link `handleUniversalM3U8Proxy` builds for a resource. -/
def mkUniProxy (cfg : UniCfg) (urlToProcess : Str) : Str :=
  cfg.web ++ cfg.pfx
    ++ resolveUniversalURL urlToProcess cfg.targetURL cfg.host cfg.basePath cfg.pfx
    ++ lit "?host=" ++ queryEscape cfg.host ++ lit "&headers=" ++ cfg.headersParam

/-- The tag-context update of the universal rewrite loop: on a master
playlist a directive line records its upper-cased name. -/
def tagStep (isMaster : Bool) (tag line : Str) : Str :=
  let trimmed := trimSp line
  if strStartsWith trimmed (lit "#") ∧ isMaster then
    asciiUpper (trimPfx (splitChar trimmed ':' true).1 (lit "#"))
  else tag

/-- One iteration of the `handleUniversalM3U8Proxy` rewrite loop: the line
emitted for the current input line given the current tag context. -/
def uniStepOut (cfg : UniCfg) (isMaster : Bool) (tag line : Str) : Str :=
  let trimmed := trimSp line
  if trimmed = [] then line
  else
    let isTag := strStartsWith trimmed (lit "#")
    let tag2 := tagStep isMaster tag line
    let inline := if isTag then extractInlineURL trimmed else []
    if isTag ∧ inline = [] then line
    else
      let urlToProcess := if inline = [] then trimmed else inline
      if isMaster ∧ tag2 ∉ allowedTags then line
      else
        let proxy := mkUniProxy cfg urlToProcess
        if inline ≠ [] then replaceFirst line inline proxy else proxy

/-- The `handleUniversalM3U8Proxy` rewrite loop over all lines, threading
the tag context. -/
def uniLoop (cfg : UniCfg) (isMaster : Bool) : Str → List Str → List Str
  | _, [] => []
  | tag, l :: ls =>
    uniStepOut cfg isMaster tag l :: uniLoop cfg isMaster (tagStep isMaster tag l) ls

/-- `strings.Contains(body, "#EXT-X-STREAM-INF:")`: master-playlist
detection. -/
def isMasterBody (body : Str) : Bool :=
  containsSub body (lit "#EXT-X-STREAM-INF:")

/-- The rewritten lines `handleUniversalM3U8Proxy` produces for a validated
body. -/
def uniLines (cfg : UniCfg) (body : Str) : List Str :=
  uniLoop cfg (isMasterBody body) [] (splitLines body)

/-- `handleUniversalM3U8Proxy` (src/v3_proxy.go) after a successful fetch,
as a function of the upstream status and the (decompressed) body: non-200
status and bodies failing the `#EXTM3U` marker check are errors; otherwise
the body is rewritten line by line and served as an HLS playlist. -/
def handleUniversalM3U8 (cfg : UniCfg) (status : Nat) (body : Str) : ProxyOutcome :=
  if status ≠ 200 then .err (lit "Upstream returned non-200 status")
  else if ¬ strStartsWith (trimSp body) (lit "#EXTM3U") then
    .err (lit "Invalid M3U8 content")
  else .ok (lit "application/vnd.apple.mpegurl") (joinNl (uniLines cfg body))

/-- The headers query parameter embedded in every universal relay link. -/
def headersParamOf (headers : List (Str × Str)) : Str :=
  queryEscape (jsonMarshalMap headers)

/-- The universal rewrite as a function of the raw header map, tying the
canonical JSON encoding into the configuration. -/
def uniRewriteBody (web pfx targetURL host basePath : Str)
    (headers : List (Str × Str)) (body : Str) : Str :=
  joinNl (uniLines ⟨web, pfx, targetURL, host, basePath, headersParamOf headers⟩ body)

/-! ## The /fileN/ rewrite from src/file_proxy.go -/

/-- `processFileKeyURI` from src/file_proxy.go: resolve the quoted URI with
`baseURL.Parse` and splice a path-style relay link over its first
occurrence; a parse failure returns the line unchanged. -/
def processFileKeyURI (line : Str) (baseURL : URL) (encodedHost pfx headersParam web : Str) :
    Str :=
  match extractKeyURIWith line with
  | none => line
  | some (_, uri) =>
    match goParse uri with
    | none => line
    | some r =>
      let resolved := resolveReference baseURL r
      let newURI := web ++ pfx ++ resolved.path ++ lit "?host=" ++ encodedHost
                    ++ lit "&headers=" ++ headersParam
      replaceFirst line uri newURI

/-- `processFileSegmentURL` from src/file_proxy.go: resolve the line with
`baseURL.Parse` and emit a path-style relay link; a parse failure returns
the line unchanged. -/
def processFileSegmentURL (line : Str) (baseURL : URL)
    (encodedHost pfx headersParam web : Str) : Str :=
  match goParse line with
  | none => line
  | some r =>
    let resolved := resolveReference baseURL r
    web ++ pfx ++ resolved.path ++ lit "?host=" ++ encodedHost
        ++ lit "&headers=" ++ headersParam

/-- The `handleFileM3U8Proxy` rewrite loop from src/file_proxy.go: every
line is trimmed before classification, blank lines are dropped, and
non-rewritten directive lines are emitted in trimmed form. -/
def fileM3U8RewriteLines (baseURL : URL) (encodedHost pfx headersParam web : Str)
    (lines : List Str) : List Str :=
  lines.foldr
    (fun line acc =>
      let trimmed := trimSp line
      if trimmed = [] then acc
      else if strStartsWith trimmed (lit "#") then
        (if containsSub trimmed (lit "URI=") then
           processFileKeyURI trimmed baseURL encodedHost pfx headersParam web
         else trimmed) :: acc
      else processFileSegmentURL trimmed baseURL encodedHost pfx headersParam web :: acc)
    []

/-- `processFileKeyURI` from src/unnamed/part_000: the quoted URI is
extracted and resolved by plain concatenation, and the function returns the
relay link alone — there is no `strings.Replace`, so the whole directive
line is replaced by the link and none of the original directive text
survives. -/
def processFileKeyURIv0 (line host basePath pfx headersParam web : Str) : Str :=
  match extractKeyURIWith line with
  | none => line
  | some (_, uri) =>
    let resolved :=
      if strStartsWith uri (lit "http://") ∨ strStartsWith uri (lit "https://") then uri
      else host ++ basePath ++ uri
    web ++ pfx ++ trimPfx resolved (lit "/") ++ lit "?host=" ++ queryEscape host
        ++ lit "&headers=" ++ headersParam

/-! ## Specification-side notions used to state the claims -/

/-- The name of the most recently seen directive before index `i`, read off
the raw lines as the spec describes it (not threaded as loop state). -/
def lastTagOf (pre : List Str) : Str :=
  pre.foldl
    (fun t l =>
      let trimmed := trimSp l
      if strStartsWith trimmed (lit "#") then
        asciiUpper (trimPfx (splitChar trimmed ':' true).1 (lit "#"))
      else t)
    []

/-- A rooted, dot-segment-free escaped path: dot-segment removal leaves it
unchanged. -/
def normalizedPathB (p : Str) : Bool :=
  p = [] ∨ (p.head? = some '/'
    ∧ (splitOnSlash (p.drop 1)).all (fun s => s ≠ lit "." ∧ s ≠ lit ".."))

/-- The escaped path is a canonical encoding of the decoded path. -/
def pathCanonicalB (u : URL) : Bool :=
  validEncoded .path (escapedPath u) ∧ unescapeWith .path (escapedPath u) = some u.path

/-- The tag context accumulated by the universal rewrite loop over a list of
already-processed lines. -/
def foldTags (isMaster : Bool) (tag : Str) (pre : List Str) : Str :=
  pre.foldl (tagStep isMaster) tag

/-! # Theorems -/

/-! ## The universal rewrite loop, characterized per line -/

theorem uniLoop_getElem? (cfg : UniCfg) (m : Bool) :
    ∀ (ls : List Str) (tag : Str) (i : Nat),
      (uniLoop cfg m tag ls)[i]? =
        (ls[i]?).map (fun l => uniStepOut cfg m (foldTags m tag (ls.take i)) l) := by
  intro ls
  induction ls with
  | nil => intro tag i; simp [uniLoop]
  | cons l t ih =>
    intro tag i
    cases i with
    | zero => simp [uniLoop, foldTags]
    | succ j => simp [uniLoop, ih (tagStep m tag l) j, foldTags]

theorem lastTagOf_eq_foldTags :
    ∀ (pre : List Str) (tag : Str),
      pre.foldl
        (fun t l =>
          let trimmed := trimSp l
          if strStartsWith trimmed (lit "#") then
            asciiUpper (trimPfx (splitChar trimmed ':' true).1 (lit "#"))
          else t)
        tag = foldTags true tag pre := by
  intro pre
  induction pre with
  | nil => intro tag; simp [foldTags]
  | cons l t ih =>
    intro tag
    simp only [List.foldl_cons, foldTags] at *
    rw [ih]
    congr 1
    simp [tagStep]

/-- Claim C3: in a playlist body containing an `#EXT-X-STREAM-INF:`
directive (a master playlist), a non-blank line that does not start with
`#` is rewritten to a relay link precisely when the most recently seen
directive name is `EXT-X-STREAM-INF`, `EXT-X-MEDIA`, or
`EXT-X-I-FRAME-STREAM-INF`; every other bare reference line is passed
through byte-identically. -/
theorem c3_master_gating (cfg : UniCfg) (body : Str) (i : Nat) (line : Str)
    (hm : isMasterBody body = true)
    (hl : (splitLines body)[i]? = some line)
    (hnb : trimSp line ≠ [])
    (hnh : strStartsWith (trimSp line) (lit "#") = false) :
    (uniLines cfg body)[i]? =
      some (if lastTagOf ((splitLines body).take i) ∈ allowedTags
            then mkUniProxy cfg (trimSp line)
            else line) := by
  unfold uniLines
  rw [hm, uniLoop_getElem?, hl, Option.map_some']
  have htag : foldTags true [] ((splitLines body).take i)
      = lastTagOf ((splitLines body).take i) := by
    rw [lastTagOf, lastTagOf_eq_foldTags]
  rw [← htag]
  unfold uniStepOut
  simp only [hnh, hnb, if_neg hnb]
  have htag2 : tagStep true (foldTags true [] ((splitLines body).take i)) line
      = foldTags true [] ((splitLines body).take i) := by
    simp [tagStep, hnh]
  simp only [hnh, Bool.false_and, Bool.false_eq_true, if_neg, htag2]
  by_cases hin : foldTags true [] ((splitLines body).take i) ∈ allowedTags
  · simp [hin]
  · simp [hin]

/-- Claim C3 witness: in a concrete master playlist the variant line right
after `#EXT-X-STREAM-INF` is rewritten to the relay link. -/
theorem c3_witness :
    (uniLines
      ⟨lit "http://localhost:3000", lit "/hls-playback/",
       lit "https://cdn.example.com/hls-playback/stream/master.m3u8",
       lit "https://cdn.example.com", lit "stream/", headersParamOf []⟩
      (lit "#EXTM3U\n#EXT-X-STREAM-INF:BANDWIDTH=800000\nvariant.m3u8\n#EXT-X-FOO:1\nother.ts"))[2]?
    = some (lit "http://localhost:3000/hls-playback//stream/variant.m3u8?host=https%3A%2F%2Fcdn.example.com&headers=%7B%7D") :=
  (c3_master_gating
    ⟨lit "http://localhost:3000", lit "/hls-playback/",
     lit "https://cdn.example.com/hls-playback/stream/master.m3u8",
     lit "https://cdn.example.com", lit "stream/", headersParamOf []⟩
    (lit "#EXTM3U\n#EXT-X-STREAM-INF:BANDWIDTH=800000\nvariant.m3u8\n#EXT-X-FOO:1\nother.ts")
    2 (lit "variant.m3u8") (by decide) (by decide) (by decide) (by decide)).trans
    (by decide)

/-! ## Claims C1 and C2: validation and byte-identity of untouched lines -/

/-- Claim C1 (counterexample): `m3u8ProxyHandler` (src/handlers.go) performs
no `#EXTM3U` validation: a fetched body that fails the marker check is still
rewritten and served as a playlist, not turned into an error outcome. -/
theorem c1_counterexample :
    m3u8HandlerResult (lit "https://example.com/x.m3u8") [] (lit "http://localhost:3000")
        (lit "not-a-playlist")
      = .ok (lit "application/vnd.apple.mpegurl")
          (lit "http://localhost:3000/ts-proxy?url=https%3A%2F%2Fexample.com%2Fnot-a-playlist&headers=%7B%7D")
    ∧ strStartsWith (trimSp (lit "not-a-playlist")) (lit "#EXTM3U") = false
    ∧ (m3u8HandlerResult (lit "https://example.com/x.m3u8") [] (lit "http://localhost:3000")
        (lit "not-a-playlist")).isError = false :=
  ⟨by decide, by decide, by decide⟩

/-- Claim C1 (amended): `handleUniversalM3U8Proxy` (src/v3_proxy.go) does
validate: whenever the fetched body, after trimming whitespace, does not
start with `#EXTM3U`, the outcome is an error and no rewritten body is
emitted, for every configuration and upstream status. -/
theorem c1_amended (cfg : UniCfg) (status : Nat) (body : Str)
    (h : strStartsWith (trimSp body) (lit "#EXTM3U") = false) :
    (handleUniversalM3U8 cfg status body).isError = true := by
  unfold handleUniversalM3U8
  by_cases hs : status = 200
  · simp [hs, h, ProxyOutcome.isError]
  · simp [hs, ProxyOutcome.isError]

/-- Claim C1 witness: a concrete invalid body yields an error outcome from
the universal handler. -/
theorem c1_witness :
    (handleUniversalM3U8
      ⟨lit "http://localhost:3000", lit "/hls-playback/",
       lit "https://cdn.example.com/hls-playback/x.m3u8",
       lit "https://cdn.example.com", lit "", headersParamOf []⟩
      200 (lit "hello")).isError = true :=
  c1_amended _ 200 _ (by decide)

/-- Claim C2 (counterexample): the `handleFileM3U8Proxy` rewrite in
src/file_proxy.go trims every line before emitting it and drops blank
lines: a non-rewritten directive line with trailing whitespace is not
byte-identical in the output, and the blank line disappears. -/
theorem c2_counterexample :
    fileM3U8RewriteLines
        ⟨lit "https", [], lit "cdn.example.com", lit "/live/playlist.m3u8", [],
         false, false, [], [], []⟩
        (lit "https%3A%2F%2Fcdn.example.com") (lit "/file1/") (lit "%7B%7D")
        (lit "http://localhost:3000")
        [lit "#EXTM3U", lit "#EXT-X-VERSION:3 ", [], lit "seg.ts"]
      = [lit "#EXTM3U", lit "#EXT-X-VERSION:3",
         lit "http://localhost:3000/file1//live/seg.ts?host=https%3A%2F%2Fcdn.example.com&headers=%7B%7D"]
    ∧ lit "#EXT-X-VERSION:3" ≠ lit "#EXT-X-VERSION:3 " :=
  ⟨by decide, by decide⟩

/-- Claim C2 (amended): in the universal rewrite loop (src/v3_proxy.go) the
invariant does hold: every blank line, every directive line without an
extractable quoted URI, and every line gated out by the master-playlist tag
context is emitted byte-identically, whitespace included. -/
theorem c2_amended (cfg : UniCfg) (m : Bool) (tag0 : Str) (ls : List Str) (i : Nat)
    (line : Str) (hl : ls[i]? = some line)
    (hcond : trimSp line = []
      ∨ (strStartsWith (trimSp line) (lit "#") = true ∧ extractInlineURL (trimSp line) = [])
      ∨ (m = true ∧ tagStep m (foldTags m tag0 (ls.take i)) line ∉ allowedTags)) :
    (uniLoop cfg m tag0 ls)[i]? = some line := by
  rw [uniLoop_getElem?, hl, Option.map_some']
  congr 1
  unfold uniStepOut
  rcases hcond with hb | ⟨hh, hu⟩ | ⟨hm, hg⟩
  · simp [hb]
  · by_cases hb : trimSp line = []
    · simp [hb]
    · simp [hb, hh, hu]
  · subst hm
    by_cases hb : trimSp line = []
    · simp [hb]
    · by_cases hh : strStartsWith (trimSp line) (lit "#") = true
      · by_cases hu : extractInlineURL (trimSp line) = []
        · simp [hb, hh, hu]
        · simp [hb, hh, hu, hg]
      · simp at hh
        simp [hb, hh, hg]

/-- Claim C2 witness: a gated-out bare line in a concrete master playlist,
carrying leading whitespace, is emitted byte-identically by the universal
rewrite. -/
theorem c2_witness :
    (uniLoop
      ⟨lit "http://localhost:3000", lit "/hls-playback/",
       lit "https://cdn.example.com/hls-playback/stream/master.m3u8",
       lit "https://cdn.example.com", lit "stream/", headersParamOf []⟩
      true []
      [lit "#EXTM3U", lit "#EXT-X-STREAM-INF:BANDWIDTH=1", lit "v.m3u8",
       lit "#EXT-X-FOO:1", lit "  other.ts  "])[4]?
    = some (lit "  other.ts  ") :=
  c2_amended _ true [] _ 4 _ (by decide)
    (Or.inr (Or.inr ⟨rfl, by decide⟩))

/-! ## Claim C6: fail-open resolution -/

/-- Claim C6: when the reference fails URL parsing (or the base does), the
resolver returns the original reference string unmodified, and
`processFileSegmentURL` (src/file_proxy.go) then emits the original line
text instead of aborting. -/
theorem c6_fail_open (base href line : Str) (baseURL : URL)
    (encodedHost pfx headersParam web : Str) :
    (goParse href = none → resolveURL base href = href)
    ∧ (goParse base = none → resolveURL base href = href)
    ∧ (goParse line = none →
        processFileSegmentURL line baseURL encodedHost pfx headersParam web = line) := by
  refine ⟨fun h => ?_, fun h => ?_, fun h => ?_⟩
  · unfold resolveURL
    cases hb : goParse base with
    | none => rfl
    | some bu => rw [h]
  · unfold resolveURL
    rw [h]
  · unfold processFileSegmentURL
    rw [h]

/-- Claim C6 witness: a reference containing a control byte fails to parse
and is passed through unchanged by both the resolver and the file-proxy
segment rewriter. -/
theorem c6_witness :
    resolveURL (lit "https://cdn.example.com/live/playlist.m3u8") (lit "seg\x01.ts")
      = lit "seg\x01.ts"
    ∧ processFileSegmentURL (lit "seg\x01.ts")
        ⟨lit "https", [], lit "cdn.example.com", lit "/live/playlist.m3u8", [],
         false, false, [], [], []⟩
        (lit "h") (lit "/file1/") (lit "p") (lit "w")
      = lit "seg\x01.ts" :=
  ⟨(c6_fail_open (lit "https://cdn.example.com/live/playlist.m3u8") (lit "seg\x01.ts")
      (lit "seg\x01.ts") default [] [] [] []).1 (by decide),
   (c6_fail_open [] [] (lit "seg\x01.ts")
      ⟨lit "https", [], lit "cdn.example.com", lit "/live/playlist.m3u8", [],
       false, false, [], [], []⟩
      (lit "h") (lit "/file1/") (lit "p") (lit "w")).2.2 (by decide)⟩

/-! ## Claims C7 and C9: the quoted-URI splice -/

theorem replaceFirst_at (s old new : Str) (i : Nat)
    (h1 : strIndex s old = some i) (h2 : old ≠ []) :
    replaceFirst s old new = s.take i ++ new ++ s.drop (i + old.length) := by
  unfold replaceFirst
  rw [if_neg h2, h1]

theorem strIndex_nil (p : Str) :
    strIndex [] p = if strStartsWith [] p then some 0 else none := rfl

theorem strIndex_cons (c : Char) (t p : Str) :
    strIndex (c :: t) p =
      if strStartsWith (c :: t) p then some 0 else (strIndex t p).map (· + 1) := rfl

theorem strIndex_startsWith :
    ∀ (l p : Str) (i : Nat), strIndex l p = some i → strStartsWith (l.drop i) p = true := by
  intro l
  induction l with
  | nil =>
    intro p i h
    rw [strIndex_nil] at h
    by_cases hs : strStartsWith [] p = true
    · simp [hs] at h
      simp [← h, hs]
    · simp only [hs, Bool.false_eq_true, if_false] at h
      cases h
  | cons c t ih =>
    intro p i h
    rw [strIndex_cons] at h
    by_cases hs : strStartsWith (c :: t) p = true
    · simp [hs] at h
      simp [← h, hs]
    · simp only [hs, Bool.false_eq_true, if_false] at h
      cases hj : strIndex t p with
      | none => rw [hj] at h; cases h
      | some j =>
        rw [hj] at h
        simp at h
        rw [← h]
        simpa using ih p j hj

theorem strIndex_le_length :
    ∀ (l p : Str) (i : Nat), strIndex l p = some i → i ≤ l.length := by
  intro l
  induction l with
  | nil =>
    intro p i h
    rw [strIndex_nil] at h
    by_cases hs : strStartsWith [] p = true
    · simp [hs] at h; omega
    · simp only [hs, Bool.false_eq_true, if_false] at h
      cases h
  | cons c t ih =>
    intro p i h
    rw [strIndex_cons] at h
    by_cases hs : strStartsWith (c :: t) p = true
    · simp [hs] at h; omega
    · simp only [hs, Bool.false_eq_true, if_false] at h
      cases hj : strIndex t p with
      | none => rw [hj] at h; cases h
      | some j =>
        rw [hj] at h
        simp at h
        have := ih p j hj
        simp [← h]
        omega

/-- Claim C7 (counterexample): when the quoted URI value also occurs earlier
in the directive line, `processKeyURI` splices the relay link over that
earlier occurrence, corrupting another attribute and leaving the quoted
value in place — so the rewrite does not replace exactly the quoted value. -/
theorem c7_counterexample :
    processKeyURI (lit "#EXT-X-KEY:METHOD=AES-128,IV=0xabc,URI=\"abc\"")
        (lit "https://example.com/path/playlist.m3u8") [] (lit "http://localhost:3000")
      = lit "#EXT-X-KEY:METHOD=AES-128,IV=0xhttp://localhost:3000/ts-proxy?url=https%3A%2F%2Fexample.com%2Fpath%2Fabc&headers=%7B%7D,URI=\"abc\""
    ∧ lit "#EXT-X-KEY:METHOD=AES-128,IV=0xhttp://localhost:3000/ts-proxy?url=https%3A%2F%2Fexample.com%2Fpath%2Fabc&headers=%7B%7D,URI=\"abc\""
      ≠ lit "#EXT-X-KEY:METHOD=AES-128,IV=0xabc,URI=\"http://localhost:3000/ts-proxy?url=https%3A%2F%2Fexample.com%2Fpath%2Fabc&headers=%7B%7D\"" :=
  ⟨by decide, by decide⟩

/-- Claim C7 (amended): the replacement targets the first occurrence of the
extracted quoted value in the whole line; when that first occurrence is the
quoted occurrence itself, exactly the quoted value is replaced — the
directive name, the other attributes and the quotes are untouched, and the
closing quote still follows the spliced region. -/
theorem c7_amended (line baseURL : Str) (headers : List (Str × Str)) (web : Str)
    (st : Nat) (uri : Str)
    (h1 : extractKeyURIWith line = some (st, uri)) (h2 : uri ≠ [])
    (h3 : strIndex line uri = some st) :
    processKeyURI line baseURL headers web =
      line.take st
      ++ (web ++ lit "/ts-proxy?url=" ++ queryEscape (resolveURL baseURL uri)
          ++ lit "&headers=" ++ queryEscape (jsonMarshalMap headers))
      ++ line.drop (st + uri.length)
    ∧ strStartsWith (line.drop (st + uri.length)) (lit "\"") = true := by
  constructor
  · unfold processKeyURI
    rw [h1]
    exact replaceFirst_at line uri _ st h3 h2
  · unfold extractKeyURIWith at h1
    cases hI : strIndex line (lit "URI=\"") with
    | none => rw [hI] at h1; simp at h1
    | some i0 =>
      rw [hI] at h1
      simp only at h1
      cases hE : strIndex (line.drop (i0 + 5)) (lit "\"") with
      | none => rw [hE] at h1; simp at h1
      | some e =>
        rw [hE] at h1
        simp only [Option.some_inj, Prod.mk.injEq] at h1
        obtain ⟨hst, huri⟩ := h1
        have hq := strIndex_startsWith (line.drop (i0 + 5)) (lit "\"") e hE
        have hel := strIndex_le_length (line.drop (i0 + 5)) (lit "\"") e hE
        rw [List.length_drop] at hel
        have hlen : uri.length = e := by
          rw [← huri]
          simp [List.length_take, List.length_drop]
          omega
        rw [List.drop_drop] at hq
        rw [← hst, hlen]
        exact hq

/-- Claim C7 witness: a normal key directive, whose URI value first occurs
inside the quotes, is rewritten in place with everything else intact. -/
theorem c7_witness :
    processKeyURI (lit "#EXT-X-KEY:METHOD=AES-128,URI=\"key.bin\"")
        (lit "https://example.com/path/playlist.m3u8") [] (lit "http://localhost:3000")
      = (lit "#EXT-X-KEY:METHOD=AES-128,URI=\"").take 31
        ++ (lit "http://localhost:3000" ++ lit "/ts-proxy?url="
            ++ queryEscape (resolveURL (lit "https://example.com/path/playlist.m3u8") (lit "key.bin"))
            ++ lit "&headers=" ++ queryEscape (jsonMarshalMap []))
        ++ (lit "#EXT-X-KEY:METHOD=AES-128,URI=\"key.bin\"").drop (31 + (lit "key.bin").length) :=
  ((c7_amended (lit "#EXT-X-KEY:METHOD=AES-128,URI=\"key.bin\"")
      (lit "https://example.com/path/playlist.m3u8") [] (lit "http://localhost:3000")
      31 (lit "key.bin") (by decide) (by decide) (by decide)).1).trans (by decide)

/-- Claim C9 (counterexample): the cited `processFileKeyURI` variant from
src/unnamed/part_000 performs no `strings.Replace`: on a `URI=""` directive
it returns the bare relay link, discarding the whole directive line — the
output is not the relay link followed by the original directive text. -/
theorem c9_counterexample :
    processFileKeyURIv0 (lit "#EXT-X-KEY:METHOD=AES-128,URI=\"\"")
        (lit "https://cdn.example.com") (lit "live/") (lit "/file1/")
        (lit "%7B%7D") (lit "http://localhost:3000")
      = lit "http://localhost:3000/file1/https://cdn.example.comlive/?host=https%3A%2F%2Fcdn.example.com&headers=%7B%7D"
    ∧ strEndsWith
        (lit "http://localhost:3000/file1/https://cdn.example.comlive/?host=https%3A%2F%2Fcdn.example.com&headers=%7B%7D")
        (lit "#EXT-X-KEY:METHOD=AES-128,URI=\"\"") = false :=
  ⟨by decide, by decide⟩

/-- Claim C9 (amended): in `processKeyURI` (src/handlers.go), when the
extracted quoted URI value is empty (`URI=""`), the Go
`strings.Replace(line, "", newURI, 1)` inserts the relay link at position
zero, so the output line is the relay link immediately followed by the whole
original directive text, and nothing is substituted between the quotes; the
part_000 `processFileKeyURI` instead replaces the entire directive line with
the relay link alone. -/
theorem c9_empty_uri (line baseURL : Str) (headers : List (Str × Str)) (web : Str)
    (st : Nat) (h1 : extractKeyURIWith line = some (st, [])) :
    processKeyURI line baseURL headers web =
      (web ++ lit "/ts-proxy?url=" ++ queryEscape (resolveURL baseURL [])
       ++ lit "&headers=" ++ queryEscape (jsonMarshalMap headers)) ++ line := by
  unfold processKeyURI
  rw [h1]
  rfl

/-- Claim C9 witness: a concrete `URI=""` directive line comes back as the
relay link glued onto the front of the unmodified directive. -/
theorem c9_witness :
    processKeyURI (lit "#EXT-X-KEY:METHOD=AES-128,URI=\"\"")
        (lit "https://example.com/path/playlist.m3u8") [] (lit "http://localhost:3000")
      = lit "http://localhost:3000/ts-proxy?url=https%3A%2F%2Fexample.com%2Fpath%2Fplaylist.m3u8&headers=%7B%7D#EXT-X-KEY:METHOD=AES-128,URI=\"\"" :=
  (c9_empty_uri (lit "#EXT-X-KEY:METHOD=AES-128,URI=\"\"")
      (lit "https://example.com/path/playlist.m3u8") [] (lit "http://localhost:3000")
      31 (by decide)).trans (by decide)

/-! ## Claim C8: content-type detection -/

theorem strStartsWith_refl : ∀ l : Str, strStartsWith l l = true := by
  intro l
  induction l with
  | nil => rfl
  | cons c t ih => simp [strStartsWith, ih]

theorem strStartsWith_length :
    ∀ (l p : Str), strStartsWith l p = true → p.length ≤ l.length := by
  intro l
  induction l with
  | nil =>
    intro p h
    cases p with
    | nil => simp
    | cons c q => simp [strStartsWith] at h
  | cons c t ih =>
    intro p h
    cases p with
    | nil => simp
    | cons d q =>
      simp only [strStartsWith, Bool.and_eq_true] at h
      have := ih q h.2
      simp
      omega

theorem strStartsWith_append_left :
    ∀ (p a b : Str), strStartsWith (a ++ b) p = true → p.length ≤ a.length →
      strStartsWith a p = true := by
  intro p
  induction p with
  | nil => intro a b _ _; cases a <;> rfl
  | cons c q ih =>
    intro a b h hl
    cases a with
    | nil => simp at hl
    | cons x a2 =>
      simp only [List.cons_append, strStartsWith, Bool.and_eq_true] at h
      simp only [List.length_cons] at hl
      simp only [strStartsWith, Bool.and_eq_true]
      exact ⟨h.1, ih a2 b h.2 (by omega)⟩

theorem strStartsWith_eq_of_length :
    ∀ (l p : Str), strStartsWith l p = true → p.length = l.length → l = p := by
  intro l
  induction l with
  | nil =>
    intro p h hl
    cases p with
    | nil => rfl
    | cons c q => simp at hl
  | cons c t ih =>
    intro p h hl
    cases p with
    | nil => simp at hl
    | cons d q =>
      simp only [strStartsWith, Bool.and_eq_true, decide_eq_true_eq] at h
      simp only [List.length_cons] at hl
      rw [h.1, ih q h.2 (by omega)]

theorem strEndsWith_cons (c : Char) (t p : Str)
    (he : strEndsWith (c :: t) p = true)
    (hs : strStartsWith (c :: t) p = false) : strEndsWith t p = true := by
  unfold strEndsWith at he ⊢
  rw [List.reverse_cons] at he
  by_cases hle : p.length ≤ t.length
  · exact strStartsWith_append_left p.reverse t.reverse [c] he (by simpa using hle)
  · exfalso
    have h1 := strStartsWith_length _ _ he
    simp at h1
    have hlen : p.reverse.length = (t.reverse ++ [c]).length := by simp; omega
    have := strStartsWith_eq_of_length _ _ he hlen
    have hp : p = c :: t := by
      have := congrArg List.reverse this
      simpa using this.symm
    rw [hp] at hs
    rw [strStartsWith_refl] at hs
    cases hs

theorem containsSub_cons (c : Char) (t p : Str) :
    containsSub (c :: t) p =
      if strStartsWith (c :: t) p then true else containsSub t p := rfl

theorem strEndsWith_containsSub :
    ∀ (l p : Str), strEndsWith l p = true → containsSub l p = true := by
  intro l
  induction l with
  | nil =>
    intro p h
    cases p with
    | nil => rfl
    | cons c q =>
      exfalso
      unfold strEndsWith at h
      rw [List.reverse_cons] at h
      have := strStartsWith_length _ _ h
      simp at this
  | cons c t ih =>
    intro p h
    rw [containsSub_cons]
    by_cases hs : strStartsWith (c :: t) p = true
    · simp [hs]
    · simp only [Bool.not_eq_true] at hs
      simp only [hs, Bool.false_eq_true, if_false]
      exact ih p (strEndsWith_cons c t p h hs)

/-- Claim C8 (counterexample): content-type detection is not a pure
path-suffix lookup: a target whose path suffix is `.bak` is classified as
`image/png` because the URL merely contains `.png`, where the claim demands
`application/octet-stream` for such a suffix. -/
theorem c8_counterexample :
    detectContentType (lit "http://h/seg.png.bak") = lit "image/png"
    ∧ lit "image/png" ≠ lit "application/octet-stream"
    ∧ strEndsWith (asciiLower (lit "http://h/seg.png.bak")) (lit ".png") = false :=
  ⟨by decide, by decide, by decide⟩

/-- Claim C8 (amended): the upstream `Content-Type` wins when non-empty;
otherwise `detectContentType` lower-cases the full URL string (query
included, not just the path) and checks `.ts`/`.m3u8` as suffixes of it,
then the image extensions by substring containment in precedence order
(jpeg, png, gif, webp, svg), defaulting to `application/octet-stream`; in
particular a URL that merely ends in an image extension is still mapped to
that image's type. -/
theorem c8_amended (upstreamCT targetURL : Str) :
    (upstreamCT ≠ [] → tsContentType upstreamCT targetURL = upstreamCT)
    ∧ (upstreamCT = [] → tsContentType upstreamCT targetURL = detectContentType targetURL)
    ∧ (strEndsWith (asciiLower targetURL) (lit ".ts") = true →
        detectContentType targetURL = lit "video/mp2t")
    ∧ (strEndsWith (asciiLower targetURL) (lit ".ts") = false →
       strEndsWith (asciiLower targetURL) (lit ".m3u8") = true →
        detectContentType targetURL = lit "application/vnd.apple.mpegurl")
    ∧ (strEndsWith (asciiLower targetURL) (lit ".ts") = false →
       strEndsWith (asciiLower targetURL) (lit ".m3u8") = false →
       containsSub (asciiLower targetURL) (lit ".jpg") = false →
       containsSub (asciiLower targetURL) (lit ".jpeg") = false →
       strEndsWith (asciiLower targetURL) (lit ".png") = true →
        detectContentType targetURL = lit "image/png")
    ∧ (strEndsWith (asciiLower targetURL) (lit ".ts") = false →
       strEndsWith (asciiLower targetURL) (lit ".m3u8") = false →
       containsSub (asciiLower targetURL) (lit ".jpg") = false →
       containsSub (asciiLower targetURL) (lit ".jpeg") = false →
       containsSub (asciiLower targetURL) (lit ".png") = false →
       containsSub (asciiLower targetURL) (lit ".gif") = false →
       containsSub (asciiLower targetURL) (lit ".webp") = false →
       containsSub (asciiLower targetURL) (lit ".svg") = false →
        detectContentType targetURL = lit "application/octet-stream") := by
  refine ⟨fun h => ?_, fun h => ?_, fun h1 => ?_, fun h1 h2 => ?_,
          fun h1 h2 h3 h4 h5 => ?_, fun h1 h2 h3 h4 h5 h6 h7 h8 => ?_⟩
  · simp [tsContentType, h]
  · simp [tsContentType, h]
  · simp [detectContentType, h1]
  · simp [detectContentType, h1, h2]
  · have hc := strEndsWith_containsSub _ _ h5
    simp [detectContentType, h1, h2, h3, h4, hc]
  · simp [detectContentType, h1, h2, h3, h4, h5, h6, h7, h8]

/-- Claim C8 witness: a URL with path suffix `.png` and empty upstream
content type is served as `image/png`. -/
theorem c8_witness :
    tsContentType [] (lit "http://h/poster.png") = lit "image/png" :=
  ((c8_amended [] (lit "http://h/poster.png")).2.1 (by decide)).trans
    ((c8_amended [] (lit "http://h/poster.png")).2.2.2.2.1
      (by decide) (by decide) (by decide) (by decide) (by decide))

/-! ## Claim C5: Range forwarding -/

theorem find?_map_repl (k v : Str) :
    ∀ m : List (Str × Str), m.any (fun p => p.1 = k) = true →
      (m.map (fun p => if p.1 = k then (k, v) else p)).find? (fun p => p.1 = k)
        = some (k, v) := by
  intro m
  induction m with
  | nil => intro h; simp at h
  | cons q t ih =>
    intro h
    by_cases hq : q.1 = k
    · simp [List.find?, hq]
    · simp only [List.any_cons, Bool.or_eq_true, decide_eq_true_eq] at h
      rcases h with h | h
      · exact absurd h hq
      · simp only [List.map_cons, if_neg hq]
        rw [List.find?_cons_of_neg _ (by simpa using hq)]
        exact ih h

theorem find?_append_none (k : Str) (rest : List (Str × Str)) :
    ∀ m : List (Str × Str), m.any (fun p => p.1 = k) = false →
      (m ++ rest).find? (fun p => p.1 = k) = rest.find? (fun p => p.1 = k) := by
  intro m
  induction m with
  | nil => intro _; rfl
  | cons q t ih =>
    intro h
    simp only [List.any_cons, Bool.or_eq_false_iff, decide_eq_false_iff_not] at h
    rw [List.cons_append, List.find?_cons_of_neg _ (by simpa using h.1)]
    exact ih (by simpa using h.2)

theorem lookupHdr_setHdr (m : List (Str × Str)) (k v : Str) :
    lookupHdr (setHdr m k v) k = some v := by
  unfold setHdr lookupHdr
  by_cases h : m.any (fun p => p.1 = k) = true
  · rw [if_pos h, find?_map_repl k v m h]
    rfl
  · have hf : m.any (fun p => p.1 = k) = false := by
      rw [← Bool.not_eq_true]; exact h
    rw [if_neg h, find?_append_none k _ m hf]
    simp [List.find?]

theorem find?_map_repl_ne (k v k' : Str) (hne : k' ≠ k) :
    ∀ m : List (Str × Str),
      (m.map (fun p => if p.1 = k then (k, v) else p)).find? (fun p => p.1 = k')
        = m.find? (fun p => p.1 = k') := by
  intro m
  induction m with
  | nil => rfl
  | cons q t ih =>
    by_cases hq : q.1 = k
    · have hqk' : ¬ q.1 = k' := by rw [hq]; exact fun hcon => hne hcon.symm
      simp only [List.map_cons, if_pos hq]
      rw [List.find?_cons_of_neg _ (by simpa using fun hcon => hne hcon.symm),
          List.find?_cons_of_neg _ (by simpa using hqk')]
      exact ih
    · simp only [List.map_cons, if_neg hq]
      by_cases hq' : q.1 = k'
      · rw [List.find?_cons_of_pos _ (by simpa using hq'),
            List.find?_cons_of_pos _ (by simpa using hq')]
      · rw [List.find?_cons_of_neg _ (by simpa using hq'),
            List.find?_cons_of_neg _ (by simpa using hq')]
        exact ih

theorem find?_append_single_ne (k v k' : Str) (hne : k' ≠ k) :
    ∀ m : List (Str × Str),
      (m ++ [(k, v)]).find? (fun p => p.1 = k') = m.find? (fun p => p.1 = k') := by
  intro m
  induction m with
  | nil =>
    simp only [List.nil_append, List.find?]
    rw [decide_eq_false (fun hcon => hne hcon.symm)]
  | cons q _t ih =>
    by_cases hq' : q.1 = k'
    · rw [List.cons_append, List.find?_cons_of_pos _ (by simpa using hq'),
          List.find?_cons_of_pos _ (by simpa using hq')]
    · rw [List.cons_append, List.find?_cons_of_neg _ (by simpa using hq'),
          List.find?_cons_of_neg _ (by simpa using hq')]
      exact ih

theorem lookupHdr_setHdr_ne (m : List (Str × Str)) (k v k' : Str) (hne : k' ≠ k) :
    lookupHdr (setHdr m k v) k' = lookupHdr m k' := by
  unfold setHdr lookupHdr
  by_cases h : m.any (fun p => p.1 = k) = true
  · rw [if_pos h, find?_map_repl_ne k v k' hne m]
  · rw [if_neg h, find?_append_single_ne k v k' hne m]

/-- The merge step of `generateRequestHeaders`. -/
def mergeStep (m : List (Str × Str)) (kv : Str × Str) : List (Str × Str) :=
  if kv.2 ≠ [] then setHdr m kv.1 kv.2 else m

theorem generateRequestHeaders_eq_foldl (t : Str) (add : List (Str × Str)) :
    generateRequestHeaders t add = add.foldl mergeStep defaultHeaders := rfl

theorem lookupHdr_foldl_preserve (k : Str) :
    ∀ (t : List (Str × Str)) (acc : List (Str × Str)), (∀ e ∈ t, e.1 ≠ k) →
      lookupHdr (t.foldl mergeStep acc) k = lookupHdr acc k := by
  intro t
  induction t with
  | nil => intro acc _; rfl
  | cons e r ih =>
    intro acc h
    rw [List.foldl_cons]
    have hr : ∀ x ∈ r, x.1 ≠ k := fun x hx => h x (List.mem_cons_of_mem e hx)
    rw [ih _ hr]
    unfold mergeStep
    by_cases he : e.2 ≠ []
    · rw [if_pos he, lookupHdr_setHdr_ne _ _ _ _ (Ne.symm (h e (List.mem_cons_self e r)))]
    · rw [if_neg he]

theorem lookupHdr_generate (_t : Str) (k v : Str) :
    ∀ (add : List (Str × Str)) (acc : List (Str × Str)),
      (add.map Prod.fst).Nodup → lookupHdr add k = some v → v ≠ [] →
      lookupHdr (add.foldl mergeStep acc) k = some v := by
  intro add
  induction add with
  | nil => intro acc _ hk _; simp [lookupHdr, List.find?] at hk
  | cons e r ih =>
    intro acc hnd hk hv
    rw [List.foldl_cons]
    by_cases he : e.1 = k
    · have hev : e.2 = v := by
        unfold lookupHdr at hk
        rw [List.find?_cons_of_pos _ (by simpa using he)] at hk
        simpa using hk
      have hr : ∀ x ∈ r, x.1 ≠ k := by
        intro x hx hxk
        simp only [List.map_cons, List.nodup_cons] at hnd
        apply hnd.1
        rw [he, ← hxk]
        exact List.mem_map_of_mem Prod.fst hx
      rw [lookupHdr_foldl_preserve k r _ hr]
      unfold mergeStep
      rw [if_pos (by rw [hev]; exact hv), he, hev, lookupHdr_setHdr]
    · have hk' : lookupHdr r k = some v := by
        unfold lookupHdr at hk ⊢
        rw [List.find?_cons_of_neg _ (by simpa using he)] at hk
        exact hk
      have hnd' : (r.map Prod.fst).Nodup := by
        simp only [List.map_cons, List.nodup_cons] at hnd
        exact hnd.2
      exact ih _ hnd' hk' hv

theorem mp4Resp_contentRange (r : UpstreamResp) :
    lookupHdr (mp4RespHeaders r) (lit "Content-Range")
      = if r.contentRange = [] then none else some r.contentRange := by
  unfold mp4RespHeaders lookupHdr
  by_cases h1 : r.contentLength = []
  · rw [if_neg (show ¬(r.contentLength ≠ []) from fun hc => hc h1)]
    by_cases h2 : r.contentRange = []
    · rw [if_neg (show ¬(r.contentRange ≠ []) from fun hc => hc h2), if_pos h2]
      rfl
    · rw [if_pos (show r.contentRange ≠ [] from h2), if_neg h2]
      rfl
  · rw [if_pos (show r.contentLength ≠ [] from h1)]
    by_cases h2 : r.contentRange = []
    · rw [if_neg (show ¬(r.contentRange ≠ []) from fun hc => hc h2), if_pos h2]
      rfl
    · rw [if_pos (show r.contentRange ≠ [] from h2), if_neg h2]
      rfl

theorem mp4Resp_acceptRanges (r : UpstreamResp) :
    lookupHdr (mp4RespHeaders r) (lit "Accept-Ranges")
      = some (if r.acceptRanges = [] then lit "bytes" else r.acceptRanges) := by
  unfold mp4RespHeaders lookupHdr
  by_cases h3 : r.acceptRanges = []
  · rw [if_neg (show ¬(r.acceptRanges ≠ []) from fun hc => hc h3), if_pos h3]
    by_cases h1 : r.contentLength = []
    · rw [if_neg (show ¬(r.contentLength ≠ []) from fun hc => hc h1)]
      by_cases h2 : r.contentRange = []
      · rw [if_neg (show ¬(r.contentRange ≠ []) from fun hc => hc h2)]
        rfl
      · rw [if_pos (show r.contentRange ≠ [] from h2)]
        rfl
    · rw [if_pos (show r.contentLength ≠ [] from h1)]
      by_cases h2 : r.contentRange = []
      · rw [if_neg (show ¬(r.contentRange ≠ []) from fun hc => hc h2)]
        rfl
      · rw [if_pos (show r.contentRange ≠ [] from h2)]
        rfl
  · rw [if_pos (show r.acceptRanges ≠ [] from h3), if_neg h3]
    by_cases h1 : r.contentLength = []
    · rw [if_neg (show ¬(r.contentLength ≠ []) from fun hc => hc h1)]
      by_cases h2 : r.contentRange = []
      · rw [if_neg (show ¬(r.contentRange ≠ []) from fun hc => hc h2)]
        rfl
      · rw [if_pos (show r.contentRange ≠ [] from h2)]
        rfl
    · rw [if_pos (show r.contentLength ≠ [] from h1)]
      by_cases h2 : r.contentRange = []
      · rw [if_neg (show ¬(r.contentRange ≠ []) from fun hc => hc h2)]
        rfl
      · rw [if_pos (show r.contentRange ≠ [] from h2)]
        rfl

/-- Claim C5 (counterexample): on `mp4ProxyHandler` the inbound `Range`
header overwrites a caller-supplied `Range` override: with override
`Range: bytes=5-9` and inbound `Range: bytes=0-1` the outbound request
carries `bytes=0-1`, not the override. -/
theorem c5_counterexample :
    lookupHdr
        (mp4OutboundHeaders (lit "https://example.com/v.mp4")
          [(lit "Range", lit "bytes=5-9")] (lit "bytes=0-1"))
        (lit "Range")
      = some (lit "bytes=0-1")
    ∧ lit "bytes=0-1" ≠ lit "bytes=5-9" :=
  ⟨by decide, by decide⟩

/-- Claim C5 (amended): in `mp4ProxyHandler` a non-empty inbound `Range`
always wins over any caller override; only `fetchHandler` lets a
caller-supplied `Range` override win. The upstream `Content-Range` is
copied when present, `Accept-Ranges` defaults to `bytes` when absent, and
the upstream status code is forwarded unchanged. -/
theorem c5_amended (targetURL : Str) (parsed : List (Str × Str)) (inbound : Str)
    (r : UpstreamResp) (fromQuery : List (Str × Str)) (referer v : Str) :
    (inbound ≠ [] →
      lookupHdr (mp4OutboundHeaders targetURL parsed inbound) (lit "Range") = some inbound)
    ∧ (lookupHdr (mp4RespHeaders r) (lit "Content-Range")
        = if r.contentRange = [] then none else some r.contentRange)
    ∧ (lookupHdr (mp4RespHeaders r) (lit "Accept-Ranges")
        = some (if r.acceptRanges = [] then lit "bytes" else r.acceptRanges))
    ∧ mp4RespStatus r = r.status
    ∧ ((fromQuery.map Prod.fst).Nodup → lookupHdr fromQuery (lit "Range") = some v →
        v ≠ [] →
        lookupHdr (fetchOutboundHeaders targetURL fromQuery referer inbound) (lit "Range")
          = some v) := by
  refine ⟨fun h => ?_, ?_, ?_, rfl, fun hnd hv hne => ?_⟩
  · unfold mp4OutboundHeaders
    rw [if_pos h, lookupHdr_setHdr]
  · exact mp4Resp_contentRange r
  · exact mp4Resp_acceptRanges r
  · unfold fetchOutboundHeaders
    rw [generateRequestHeaders_eq_foldl]
    have hRr : lookupHdr
        (if referer ≠ [] then setHdr fromQuery (lit "Referer") referer else fromQuery)
        (lit "Range") = some v := by
      by_cases hrf : referer ≠ []
      · rw [if_pos hrf, lookupHdr_setHdr_ne _ _ _ _ (by decide)]
        exact hv
      · rw [if_neg hrf]
        exact hv
    have hcond : ¬(inbound ≠ [] ∧ lookupHdr
        (if referer ≠ [] then setHdr fromQuery (lit "Referer") referer else fromQuery)
        (lit "Range") = none) := by
      intro hcon
      rw [hRr] at hcon
      exact Option.some_ne_none v hcon.2
    have hnd0 : ((if referer ≠ [] then setHdr fromQuery (lit "Referer") referer
        else fromQuery).map Prod.fst).Nodup := by
      by_cases hrf : referer ≠ []
      · rw [if_pos hrf]
        unfold setHdr
        by_cases ha : fromQuery.any (fun p => p.1 = lit "Referer") = true
        · rw [if_pos ha]
          have hmm : (fromQuery.map (fun p =>
              if p.1 = lit "Referer" then (lit "Referer", referer) else p)).map Prod.fst
              = fromQuery.map Prod.fst := by
            rw [List.map_map]
            apply List.map_congr_left
            intro p _
            by_cases hp : p.1 = lit "Referer"
            · simp [hp]
            · simp [hp]
          rw [hmm]
          exact hnd
        · rw [if_neg ha, List.map_append]
          simp only [List.map_cons, List.map_nil]
          rw [List.nodup_append]
          refine ⟨hnd, List.nodup_singleton _, ?_⟩
          intro a ha2 hb
          simp only [List.mem_singleton] at hb
          rcases List.mem_map.mp ha2 with ⟨p, hp, hpk⟩
          apply ha
          rw [List.any_eq_true]
          exact ⟨p, hp, by simp [hpk, hb]⟩
      · rw [if_neg hrf]
        exact hnd
    have hp1 : lookupHdr (fetchParsedHeaders fromQuery referer inbound) (lit "Range")
        = some v := by
      simp only [fetchParsedHeaders]
      rw [if_neg hcond]
      exact hRr
    have hnd1 : ((fetchParsedHeaders fromQuery referer inbound).map Prod.fst).Nodup := by
      simp only [fetchParsedHeaders]
      rw [if_neg hcond]
      exact hnd0
    exact lookupHdr_generate targetURL (lit "Range") v _ _ hnd1 hp1 hne

/-- Claim C5 witness: with no override, a concrete inbound Range appears
verbatim on the mp4 outbound request. -/
theorem c5_witness :
    lookupHdr (mp4OutboundHeaders (lit "https://example.com/v.mp4") []
      (lit "bytes=100-199")) (lit "Range") = some (lit "bytes=100-199") :=
  (c5_amended (lit "https://example.com/v.mp4") [] (lit "bytes=100-199")
    ⟨200, [], [], [], []⟩ [] [] []).1 (by decide)

/-! ## Claim C10: canonical JSON and deterministic rewriting -/

theorem strLeB_nil_left (y : Str) : strLeB [] y = true := rfl

theorem strLeB_cons_nil (a : Char) (s : Str) : strLeB (a :: s) [] = false := rfl

theorem strLeB_cons_cons (a b : Char) (s t : Str) :
    strLeB (a :: s) (b :: t) =
      if a < b then true else if b < a then false else strLeB s t := rfl

theorem strLeB_total : ∀ x y : Str, strLeB x y = true ∨ strLeB y x = true := by
  intro x
  induction x with
  | nil => intro y; exact Or.inl rfl
  | cons a s ih =>
    intro y
    cases y with
    | nil => exact Or.inr rfl
    | cons b t =>
      rcases lt_trichotomy a b with hab | hab | hab
      · left
        rw [strLeB_cons_cons, if_pos hab]
      · subst hab
        rw [strLeB_cons_cons, if_neg (lt_irrefl a), if_neg (lt_irrefl a),
            strLeB_cons_cons, if_neg (lt_irrefl a), if_neg (lt_irrefl a)]
        exact ih t
      · right
        rw [strLeB_cons_cons, if_pos hab]

theorem strLeB_trans :
    ∀ x y z : Str, strLeB x y = true → strLeB y z = true → strLeB x z = true := by
  intro x
  induction x with
  | nil => intro y z _ _; rfl
  | cons a s ih =>
    intro y z h1 h2
    cases y with
    | nil => rw [strLeB_cons_nil] at h1; cases h1
    | cons b t =>
      cases z with
      | nil => rw [strLeB_cons_nil] at h2; cases h2
      | cons c u =>
        rw [strLeB_cons_cons] at h1 h2 ⊢
        by_cases hab : a < b
        · by_cases hbc : b < c
          · rw [if_pos (lt_trans hab hbc)]
          · rw [if_neg hbc] at h2
            by_cases hcb : c < b
            · rw [if_pos hcb] at h2; cases h2
            · have hbc2 : b = c := le_antisymm (not_lt.mp hcb) (not_lt.mp hbc)
              subst hbc2
              rw [if_pos hab]
        · rw [if_neg hab] at h1
          by_cases hba : b < a
          · rw [if_pos hba] at h1; cases h1
          · have hab2 : a = b := le_antisymm (not_lt.mp hba) (not_lt.mp hab)
            subst hab2
            by_cases hbc : a < c
            · rw [if_pos hbc]
            · rw [if_neg hbc] at h2 ⊢
              by_cases hcb : c < a
              · rw [if_pos hcb] at h2; cases h2
              · rw [if_neg hba] at h1
                rw [if_neg hcb] at h2 ⊢
                exact ih t u h1 h2

theorem strLeB_antisymm :
    ∀ x y : Str, strLeB x y = true → strLeB y x = true → x = y := by
  intro x
  induction x with
  | nil =>
    intro y _ h2
    cases y with
    | nil => rfl
    | cons b t => rw [strLeB_cons_nil] at h2; cases h2
  | cons a s ih =>
    intro y h1 h2
    cases y with
    | nil => rw [strLeB_cons_nil] at h1; cases h1
    | cons b t =>
      rw [strLeB_cons_cons] at h1 h2
      by_cases hab : a < b
      · rw [if_neg (lt_asymm hab), if_pos hab] at h2
        cases h2
      · by_cases hba : b < a
        · rw [if_neg hab, if_pos hba] at h1
          cases h1
        · have hab2 : a = b := le_antisymm (not_lt.mp hba) (not_lt.mp hab)
          subst hab2
          rw [if_neg hab, if_neg hab] at h1 h2
          rw [ih t h1 h2]

/-- The key order used by the canonical JSON encoding. -/
def keyRel (a b : Str × Str) : Prop := strLeB a.1 b.1 = true

theorem insPair_perm (p : Str × Str) :
    ∀ l : List (Str × Str), (insPair p l).Perm (p :: l) := by
  intro l
  induction l with
  | nil => exact List.Perm.refl _
  | cons q t ih =>
    unfold insPair
    by_cases h : strLeB p.1 q.1 = true
    · rw [if_pos h]
    · rw [if_neg h]
      exact (List.Perm.cons q ih).trans (List.Perm.swap p q t)

theorem mem_insPair (x p : Str × Str) (l : List (Str × Str)) :
    x ∈ insPair p l → x = p ∨ x ∈ l := by
  intro hx
  have := (insPair_perm p l).mem_iff.mp hx
  simpa using this

theorem insPair_pairwise (p : Str × Str) :
    ∀ l : List (Str × Str), l.Pairwise keyRel → (insPair p l).Pairwise keyRel := by
  intro l
  induction l with
  | nil => intro _; exact List.pairwise_singleton keyRel p
  | cons q t ih =>
    intro hp
    rcases List.pairwise_cons.mp hp with ⟨hq, ht⟩
    unfold insPair
    by_cases h : strLeB p.1 q.1 = true
    · rw [if_pos h]
      refine List.pairwise_cons.mpr ⟨?_, hp⟩
      intro x hx
      rcases List.mem_cons.mp hx with hx | hx
      · subst hx; exact h
      · exact strLeB_trans _ _ _ h (hq x hx)
    · rw [if_neg h]
      refine List.pairwise_cons.mpr ⟨?_, ih ht⟩
      intro x hx
      rcases mem_insPair x p t hx with hx | hx
      · rw [hx]
        rcases strLeB_total p.1 q.1 with htot | htot
        · exact absurd htot h
        · exact htot
      · exact hq x hx

theorem sortPairs_perm (l : List (Str × Str)) : (sortPairs l).Perm l := by
  induction l with
  | nil => exact List.Perm.refl _
  | cons q t ih =>
    unfold sortPairs at ih ⊢
    rw [List.foldr_cons]
    exact (insPair_perm q _).trans (List.Perm.cons q ih)

theorem sortPairs_pairwise (l : List (Str × Str)) : (sortPairs l).Pairwise keyRel := by
  induction l with
  | nil => exact List.Pairwise.nil
  | cons q t ih =>
    unfold sortPairs at ih ⊢
    rw [List.foldr_cons]
    exact insPair_pairwise q _ ih

theorem pairwise_perm_nodupkeys_eq :
    ∀ (l1 l2 : List (Str × Str)), l1.Perm l2 → l1.Pairwise keyRel → l2.Pairwise keyRel →
      (l1.map Prod.fst).Nodup → l1 = l2 := by
  intro l1
  induction l1 with
  | nil =>
    intro l2 hp _ _ _
    exact hp.nil_eq
  | cons a t1 ih =>
    intro l2 hp hp1 hp2 hnd
    cases l2 with
    | nil => exact absurd hp.symm.nil_eq (by simp)
    | cons b t2 =>
      by_cases hab : a = b
      · subst hab
        have ht : t1.Perm t2 := hp.cons_inv
        rcases List.pairwise_cons.mp hp1 with ⟨_, hp1t⟩
        rcases List.pairwise_cons.mp hp2 with ⟨_, hp2t⟩
        have hndt : (t1.map Prod.fst).Nodup := by
          simp only [List.map_cons, List.nodup_cons] at hnd
          exact hnd.2
        rw [ih t2 ht hp1t hp2t hndt]
      · exfalso
        have hat2 : a ∈ t2 := by
          have := hp.mem_iff.mp (List.mem_cons_self a t1)
          rcases List.mem_cons.mp this with h | h
          · exact absurd h hab
          · exact h
        have hbt1 : b ∈ t1 := by
          have := hp.symm.mem_iff.mp (List.mem_cons_self b t2)
          rcases List.mem_cons.mp this with h | h
          · exact absurd h.symm hab
          · exact h
        have hRab : strLeB a.1 b.1 = true :=
          (List.pairwise_cons.mp hp1).1 b hbt1
        have hRba : strLeB b.1 a.1 = true :=
          (List.pairwise_cons.mp hp2).1 a hat2
        have hkeys : a.1 = b.1 := strLeB_antisymm _ _ hRab hRba
        simp only [List.map_cons, List.nodup_cons] at hnd
        apply hnd.1
        rw [hkeys]
        exact List.mem_map_of_mem Prod.fst hbt1

theorem sortPairs_eq_of_perm (l1 l2 : List (Str × Str)) (h : l1.Perm l2)
    (hnd : (l1.map Prod.fst).Nodup) : sortPairs l1 = sortPairs l2 := by
  refine pairwise_perm_nodupkeys_eq _ _
    ((sortPairs_perm l1).trans (h.trans (sortPairs_perm l2).symm))
    (sortPairs_pairwise l1) (sortPairs_pairwise l2) ?_
  exact (((sortPairs_perm l1).map Prod.fst).nodup_iff).mpr hnd

/-- Claim C10: the universal playlist rewrite is deterministic in the header
map: two header maps with the same contents (permutations of each other,
with distinct keys as in a Go map) produce byte-identical rewritten
playlists, because the JSON encoding embedded in every relay link sorts the
map's keys. -/
theorem c10_deterministic (web pfx targetURL host basePath : Str)
    (h1 h2 : List (Str × Str)) (body : Str)
    (hperm : h1.Perm h2) (hnd : (h1.map Prod.fst).Nodup) :
    uniRewriteBody web pfx targetURL host basePath h1 body
      = uniRewriteBody web pfx targetURL host basePath h2 body := by
  unfold uniRewriteBody headersParamOf jsonMarshalMap
  rw [sortPairs_eq_of_perm h1 h2 hperm hnd]

/-- Claim C10 witness: two orderings of the same concrete header map
produce identical rewritten output. -/
theorem c10_witness :
    uniRewriteBody (lit "http://localhost:3000") (lit "/hls-playback/")
        (lit "https://cdn.example.com/hls-playback/index.m3u8")
        (lit "https://cdn.example.com") []
        [(lit "Referer", lit "https://x.example/"), (lit "Accept", lit "*/*")]
        (lit "#EXTM3U\nseg1.ts")
      = uniRewriteBody (lit "http://localhost:3000") (lit "/hls-playback/")
        (lit "https://cdn.example.com/hls-playback/index.m3u8")
        (lit "https://cdn.example.com") []
        [(lit "Accept", lit "*/*"), (lit "Referer", lit "https://x.example/")]
        (lit "#EXTM3U\nseg1.ts") :=
  c10_deterministic (lit "http://localhost:3000") (lit "/hls-playback/")
    (lit "https://cdn.example.com/hls-playback/index.m3u8")
    (lit "https://cdn.example.com") []
    [(lit "Referer", lit "https://x.example/"), (lit "Accept", lit "*/*")]
    [(lit "Accept", lit "*/*"), (lit "Referer", lit "https://x.example/")]
    (lit "#EXTM3U\nseg1.ts") (by decide) (by decide)

/-! ## Claim C4: resolution of absolute references -/

theorem splitAllChar_ne_nil (sep : Char) : ∀ l : Str, splitAllChar sep l ≠ [] := by
  intro l
  cases l with
  | nil => simp [splitAllChar]
  | cons c t =>
    unfold splitAllChar
    by_cases h : c = sep
    · simp [h]
    · rw [if_neg h]
      cases hsp : splitAllChar sep t with
      | nil => simp
      | cons h2 r => simp

theorem joinWith_splitAllChar (sep : Char) :
    ∀ l : Str, joinWith sep (splitAllChar sep l) = l := by
  intro l
  induction l with
  | nil => rfl
  | cons c t ih =>
    unfold splitAllChar
    by_cases h : c = sep
    · rw [if_pos h]
      cases hsp : splitAllChar sep t with
      | nil => exact absurd hsp (splitAllChar_ne_nil sep t)
      | cons h2 rr =>
        rw [hsp] at ih
        rw [show joinWith sep ([] :: h2 :: rr) = sep :: joinWith sep (h2 :: rr)
            from rfl, ih, h]
    · rw [if_neg h]
      cases hsp : splitAllChar sep t with
      | nil => exact absurd hsp (splitAllChar_ne_nil sep t)
      | cons h2 rr =>
        rw [hsp] at ih
        show joinWith sep ((c :: h2) :: rr) = c :: t
        cases rr with
        | nil =>
          rw [show joinWith sep [c :: h2] = c :: h2 from rfl]
          rw [show joinWith sep [h2] = h2 from rfl] at ih
          rw [ih]
        | cons h3 rr2 =>
          rw [show joinWith sep ((c :: h2) :: h3 :: rr2)
              = (c :: h2) ++ sep :: joinWith sep (h3 :: rr2) from rfl,
              List.cons_append]
          rw [show joinWith sep (h2 :: h3 :: rr2)
              = h2 ++ sep :: joinWith sep (h3 :: rr2) from rfl] at ih
          rw [ih]

theorem dotSegsAcc_no_dots :
    ∀ (segs : List Str) (acc : List Str),
      (∀ s ∈ segs, ¬s = lit "." ∧ ¬s = lit "..") →
      dotSegsAcc acc segs = segs.reverse ++ acc := by
  intro segs
  induction segs with
  | nil => intro acc _; simp [dotSegsAcc]
  | cons s rest ih =>
    intro acc h
    have hs := h s (List.mem_cons_self s rest)
    have hrest : ∀ x ∈ rest, ¬x = lit "." ∧ ¬x = lit ".." :=
      fun x hx => h x (List.mem_cons_of_mem s hx)
    unfold dotSegsAcc
    rw [if_neg hs.1, if_neg hs.2, ih (s :: acc) hrest]
    simp

theorem getLast?_mem_of_eq :
    ∀ (l : List Str) (s : Str), l.getLast? = some s → s ∈ l := by
  intro l
  induction l with
  | nil => intro s h; simp at h
  | cons a t ih =>
    intro s h
    cases t with
    | nil =>
      simp [List.getLast?] at h
      simp [h]
    | cons b u =>
      rw [List.getLast?_cons_cons] at h
      exact List.mem_cons_of_mem a (ih s h)

theorem resolvePathGo_id (p : Str) (h : normalizedPathB p = true) :
    resolvePathGo p [] = p := by
  unfold normalizedPathB at h
  by_cases hp : p = []
  · rw [hp]; rfl
  · cases p with
    | nil => exact absurd rfl hp
    | cons c tp =>
      simp only [decide_eq_true_eq, Bool.decide_or, Bool.or_eq_true, decide_eq_true_eq] at h
      rcases h with h | h
      · exact absurd h hp
      · obtain ⟨hhead, hall⟩ := h
        have hc : c = '/' := by
          simp [List.head?] at hhead
          exact hhead
        subst hc
        have hall2 : ∀ s ∈ splitOnSlash tp, ¬s = lit "." ∧ ¬s = lit ".." := by
          intro s hs
          have := List.all_eq_true.mp hall s hs
          simp only [Bool.decide_and, Bool.and_eq_true, decide_eq_true_eq] at this
          simpa using this
        show resolvePathGo ('/' :: tp) [] = '/' :: tp
        unfold resolvePathGo
        simp only [reduceIte, List.head?_cons, List.drop_succ_cons, List.drop_zero]
        rw [dotSegsAcc_no_dots (splitOnSlash tp) [] hall2]
        have htrail :
            (match (splitOnSlash tp).getLast? with
              | some s => (decide (s = lit ".") || decide (s = lit ".."))
              | none => false) = false := by
          cases hgl : (splitOnSlash tp).getLast? with
          | none => rfl
          | some s =>
            have hmem := getLast?_mem_of_eq _ s hgl
            have := hall2 s hmem
            simp [this.1, this.2]
        rw [htrail]
        simp only [Bool.false_eq_true, false_and, if_neg, List.append_nil,
          List.reverse_reverse, not_false_eq_true]
        rw [show (joinSlash (splitOnSlash tp) : Str)
            = joinWith '/' (splitAllChar '/' tp) from rfl]
        rw [joinWith_splitAllChar]
        rw [if_neg hp]

theorem urlString_eq_of_fields (u v : URL)
    (hs : v.scheme = u.scheme) (ho : v.opq = u.opq) (hh : v.host = u.host)
    (hp : v.path = u.path) (hom : v.omitHost = u.omitHost)
    (hfq : v.forceQuery = u.forceQuery) (hq : v.rawQuery = u.rawQuery)
    (hf : v.fragment = u.fragment) (hrf : v.rawFragment = u.rawFragment)
    (hep : escapedPath v = escapedPath u) : urlString v = urlString u := by
  unfold urlString
  rw [hs, ho, hh, hp, hom, hfq, hq, hf, hep]
  have hef : escapedFragment v = escapedFragment u := by
    unfold escapedFragment
    rw [hf, hrf]
  rw [hef]

theorem setPathD_canonical (u : URL) (hc : pathCanonicalB u = true)
    (hn : normalizedPathB (escapedPath u) = true) :
    urlString (setPathD u (escapedPath u)) = urlString u := by
  have hval : validEncoded .path (escapedPath u) = true
      ∧ unescapeWith .path (escapedPath u) = some u.path := by
    unfold pathCanonicalB at hc
    simpa using hc
  have hsetD : setPathD u (escapedPath u)
      = { u with path := u.path,
                 rawPath := if escapeWith .path u.path = escapedPath u then []
                            else escapedPath u } := by
    unfold setPathD setPath
    rw [hval.2]
    rfl
  rw [hsetD]
  refine urlString_eq_of_fields _ _ rfl rfl rfl rfl rfl rfl rfl rfl rfl ?_
  have hmk : ∀ r' : Str,
      escapedPath { u with path := u.path, rawPath := r' }
        = if r' ≠ [] ∧ validEncoded .path r' = true ∧ unescapeWith .path r' = some u.path
          then r'
          else if u.path = lit "*" then lit "*" else escapeWith .path u.path := by
    intro r'
    rfl
  rw [hmk]
  by_cases hesc : escapeWith .path u.path = escapedPath u
  · rw [if_pos hesc]
    rw [if_neg (fun hcon => hcon.1 rfl)]
    by_cases hstar : u.path = lit "*"
    · exfalso
      rw [hstar] at hesc
      rw [show escapeWith .path (lit "*") = lit "%2A" from rfl] at hesc
      rw [← hesc] at hn
      exact absurd hn (by decide)
    · rw [if_neg hstar]
      exact hesc
  · rw [if_neg hesc]
    have hpne : escapedPath u ≠ [] := by
      intro hpe
      apply hesc
      have h2 := hval.2
      rw [hpe] at h2 ⊢
      rw [show unescapeWith .path ([] : Str) = some [] from rfl] at h2
      have hup : u.path = [] := by simpa using h2.symm
      rw [hup]
      rfl
    rw [if_pos ⟨hpne, hval.1, hval.2⟩]

/-- Claim C4 (counterexample): resolving an absolute reference normalizes
its path (RFC 3986 dot-segment removal inside `ResolveReference`), so
`resolve(R, base)` is not the identity on every absolute `R`. -/
theorem c4_counterexample :
    resolveURL (lit "http://x/") (lit "http://h/a/../b") = lit "http://h/b"
    ∧ lit "http://h/b" ≠ lit "http://h/a/../b" :=
  ⟨by decide, by decide⟩

/-- Claim C4 (amended): for an absolute `http`/`https` reference `R`,
resolution ignores the base entirely (an unparseable base also returns `R`)
and returns `R` itself whenever `R` round-trips through parsing, its
escaped path is canonical, and the path contains no dot segments; in
general the only change resolution makes is dot-segment normalization of
the path. -/
theorem c4_amended (R : Str) (u : URL)
    (h1 : goParse R = some u)
    (h2 : u.scheme = lit "http" ∨ u.scheme = lit "https")
    (h3 : urlString u = R)
    (h4 : normalizedPathB (escapedPath u) = true)
    (h5 : pathCanonicalB u = true) :
    ∀ base : Str, resolveURL base R = R := by
  intro base
  unfold resolveURL
  cases hb : goParse base with
  | none => rfl
  | some bu =>
    rw [h1]
    have hsch : u.scheme ≠ [] := by
      rcases h2 with h | h <;> rw [h] <;> decide
    show urlString (resolveReference bu u) = R
    unfold resolveReference
    rw [if_neg hsch, if_pos (Or.inl hsch)]
    rw [resolvePathGo_id _ h4, setPathD_canonical u h5 h4]
    exact h3

/-- Claim C4 witness: a concrete normalized absolute reference is returned
unchanged for a concrete base. -/
theorem c4_witness :
    resolveURL (lit "http://example.org/base/playlist.m3u8") (lit "http://h/b")
      = lit "http://h/b" :=
  c4_amended (lit "http://h/b")
    ⟨lit "http", [], lit "h", lit "/b", [], false, false, [], [], []⟩
    (by decide) (Or.inl (by decide)) (by decide) (by decide) (by decide)
    (lit "http://example.org/base/playlist.m3u8")

end M3U8Proxy
